import Mathlib

/-!
Shallow embedding of the `field` audio-visualiser core (the Spectral Engine,
the two visual state machines, the per-frame Coordinator update, and a model
of the Packet Channel).

Conventions of the embedding:
* `f32` values are modelled as exact rationals (`ℚ`); decimal constants of the
  source are read at face value.
* Irrational construction-time data (the Hann window, `1/sqrt(fft_size)`,
  `8^0.6`, the FFT twiddle factors, and the pre-clamp `f32`
  frequency-to-bin rounding of `precalculate_bands`) are parameters of the
  model: every theorem below holds for all of their values, so it holds in
  particular for the values the source computes.
* Rust panic points (integer division by zero, out-of-bounds indexing and
  slicing) are modelled with `Option`: `none` is a panic.
* `Nat` subtraction is truncated; the source's `usize` subtractions are only
  relied on by theorems under hypotheses (such as `4 ≤ fft_size`) that rule
  underflow out.
-/

namespace Field

/-- `AudioConfig` from `src/audio/mod.rs`. -/
structure AudioConfig where
  fft_size : ℕ
  buffer_size : ℕ
  bar_count : ℕ

/-- `BandInfo` from `src/audio/processor.rs`. -/
structure BandInfo where
  bin_low : ℕ
  bin_high : ℕ
  compensation : ℚ

/-- The three compensation tiers of `AudioProcessor::precalculate_bands`
(`0..=7`, `8..=31`, remaining bars). -/
def compensationFor (i : ℕ) : ℚ :=
  if i ≤ 7 then 0.2 + 0.3 * ((i : ℚ) / 8)
  else if i ≤ 31 then 0.5 + 0.5 * (((i : ℚ) - 8) / 24)
  else 1.0 + 1.0 * (((i : ℚ) - 32) / 32)

/-- One entry built by `AudioProcessor::precalculate_bands`: the clamping the
source applies to the rounded bin indices.  `raw` stands for the pair
`(round(freq_low*fft_size/sample_rate) as usize,
round(freq_high*fft_size/sample_rate) as usize)`; the `f32` computation behind
it is abstracted, because the saturating `as usize` cast always yields some
natural number whatever the float inputs are. -/
def mkBandInfo (fft_size : ℕ) (raw : ℕ × ℕ) (i : ℕ) : BandInfo :=
  let bin_low := min raw.1 (fft_size / 2 - 2)
  let bin_high := min (max raw.2 (bin_low + 1)) (fft_size / 2 - 1)
  ⟨bin_low, bin_high, compensationFor i⟩

/-- `AudioProcessor::precalculate_bands`, parameterised by the abstract
pre-clamp bin computation `raw` (one pair per bar index). -/
def precalculate_bands (fft_size bar_count : ℕ) (raw : ℕ → ℕ × ℕ) : List BandInfo :=
  (List.range bar_count).map fun i => mkBandInfo fft_size (raw i) i

/-- State of `AudioProcessor`.  The reusable fft buffers of the source
(`fft_real_input`, `fft_complex`, `fft_scratch`) are call-transient in the
pure model and are not part of the state; `twRe`/`twIm` are the abstract
twiddle factors of the real FFT and `rawBins` the abstract pre-clamp bin
computation (see `mkBandInfo`). -/
structure AudioProcessor where
  config : AudioConfig
  window_function : List ℚ
  fft_output : List ℚ
  smoothed_fft : List ℚ
  band_mapping : List BandInfo
  sample_rate : ℚ
  norm_factor : ℚ
  gain_gamma : ℚ
  twRe : ℕ → ℕ → ℚ
  twIm : ℕ → ℕ → ℚ
  rawBins : ℚ → ℕ → ℕ × ℕ

/-- `AudioProcessor::new`.  `window` stands for the Hann window,
`norm_factor` for `1/sqrt(fft_size)` and `gain_gamma` for `8^0.6` (all
irrational in general, hence parameters). -/
def AudioProcessor.new (config : AudioConfig) (window : List ℚ)
    (norm_factor gain_gamma : ℚ) (twRe twIm : ℕ → ℕ → ℚ)
    (rawBins : ℚ → ℕ → ℕ × ℕ) : AudioProcessor where
  config := config
  window_function := window
  fft_output := List.replicate (config.fft_size / 2) 0
  smoothed_fft := List.replicate config.bar_count 0
  band_mapping := []
  sample_rate := 0
  norm_factor := norm_factor
  gain_gamma := gain_gamma
  twRe := twRe
  twIm := twIm
  rawBins := rawBins

/-- `AudioProcessor::MAG_ALPHA` as written in the source. -/
def MAG_ALPHA : ℚ := 0.96043387

/-- `AudioProcessor::MAG_BETA` as written in the source. -/
def MAG_BETA : ℚ := 0.39782473

/-- `f32::EPSILON = 2^-23`, the sample-rate change threshold. -/
def fftEpsilon : ℚ := 1 / 8388608

/-- The zero-filled, windowed, dc-removed input block built at the start of
the non-empty branch of `AudioProcessor::process`: `count` leading samples are
taken, their mean removed, and the Hann window applied; the zip truncates at
the window length; the rest of the `fft_size` buffer stays zero. -/
def prepareInput (fft_size : ℕ) (window samples : List ℚ) : List ℚ :=
  let count := min fft_size samples.length
  let mean := (samples.take count).sum / (count : ℚ)
  (List.range fft_size).map fun n =>
    if n < min count window.length then (samples.getD n 0 - mean) * window.getD n 0
    else 0

/-- Bin `k` of the forward real FFT of `input`, with abstract twiddle factors
(the real FFT instantiates them with cosines and sines; every property proved
below holds for all twiddle values). -/
def dftBin (twRe twIm : ℕ → ℕ → ℚ) (input : List ℚ) (k : ℕ) : ℚ × ℚ :=
  (((List.range input.length).map fun n => input.getD n 0 * twRe k n).sum,
   ((List.range input.length).map fun n => input.getD n 0 * twIm k n).sum)

/-- The per-bin magnitude approximation and scaling of
`AudioProcessor::process`: alpha-max-plus-beta-min, then normalisation and
gain/gamma, clamped to at most `1`. -/
def magScale (norm_factor gain_gamma : ℚ) (c : ℚ × ℚ) : ℚ :=
  let re := |c.1|
  let im := |c.2|
  let mag_approx := MAG_ALPHA * max re im + MAG_BETA * min re im
  min (mag_approx * norm_factor * gain_gamma) 1

/-- The band average of `AudioProcessor::update_bands`: the mean of
`fft_output[bin_low..=bin_high]` when `bin_high > bin_low`, otherwise `0`. -/
def bandAvg (fft_output : List ℚ) (b : BandInfo) : ℚ :=
  if b.bin_low < b.bin_high then
    ((fft_output.drop b.bin_low).take (b.bin_high - b.bin_low + 1)).sum
      / ((b.bin_high - b.bin_low + 1 : ℕ) : ℚ)
  else 0

/-- `SMOOTH_FACTOR` of `AudioProcessor::update_bands`. -/
def SMOOTH_FACTOR : ℚ := 0.85

/-- `ATTACK_FACTOR` of `AudioProcessor::update_bands`. -/
def ATTACK_FACTOR : ℚ := 0.15

/-- `AudioProcessor::update_bands`.  The guard names the source's panic
conditions: the slice `fft_output[bin_low..=bin_high]` (taken only when
`bin_high > bin_low`) must lie in bounds, and `smoothed_fft[i]` must exist for
every band index `i`. -/
def AudioProcessor.update_bands (p : AudioProcessor) : Option AudioProcessor :=
  if (∀ b ∈ p.band_mapping, b.bin_low < b.bin_high → b.bin_high < p.fft_output.length)
      ∧ p.band_mapping.length ≤ p.smoothed_fft.length then
    some { p with smoothed_fft :=
      (List.range p.smoothed_fft.length).map fun i =>
        if i < p.band_mapping.length then
          let b := p.band_mapping.getD i ⟨0, 0, 0⟩
          let compensated := min (bandAvg p.fft_output b * b.compensation) 1
          p.smoothed_fft.getD i 0 * SMOOTH_FACTOR + compensated * ATTACK_FACTOR
        else p.smoothed_fft.getD i 0 }
  else none

/-- `DECAY_FACTOR` of `AudioProcessor::decay`. -/
def DECAY_FACTOR : ℚ := 0.95

/-- `AudioProcessor::decay`: multiply every smoothed entry by `0.95`. -/
def AudioProcessor.decay (p : AudioProcessor) : AudioProcessor :=
  { p with smoothed_fft := p.smoothed_fft.map (· * DECAY_FACTOR) }

/-- The sample-rate change check at the top of `AudioProcessor::process`:
when the rate moved by more than `f32::EPSILON`, record it and rebuild the
band map. -/
def AudioProcessor.rebuild (p : AudioProcessor) (sample_rate : ℚ) : AudioProcessor :=
  if fftEpsilon < |sample_rate - p.sample_rate| then
    { p with sample_rate := sample_rate,
             band_mapping :=
               precalculate_bands p.config.fft_size p.config.bar_count
                 (p.rawBins sample_rate) }
  else p

/-- The raw magnitude buffer after the fft/magnitude loop of the non-empty
branch of `AudioProcessor::process`: the first `fft_size/2` entries are the
scaled magnitude approximations of the windowed, dc-removed input block, the
rest of the buffer keeps its old contents. -/
def AudioProcessor.freshOutput (p : AudioProcessor) (samples : List ℚ) : List ℚ :=
  ((List.range (p.config.fft_size / 2)).map fun i =>
    magScale p.norm_factor p.gain_gamma
      (dftBin p.twRe p.twIm
        (prepareInput p.config.fft_size p.window_function samples) i))
    ++ p.fft_output.drop (p.config.fft_size / 2)

/-- `AudioProcessor::process`.  First the sample-rate change check and band
rebuild, then either the silence decay (empty `samples`) or the windowed FFT,
magnitude pass (which overwrites the first `fft_size/2` entries of
`fft_output`, a panic if the buffer is shorter) and `update_bands`. -/
def AudioProcessor.process (p : AudioProcessor) (samples : List ℚ) (sample_rate : ℚ) :
    Option AudioProcessor :=
  let p := p.rebuild sample_rate
  if samples.isEmpty then some p.decay
  else if p.config.fft_size / 2 ≤ p.fft_output.length then
    AudioProcessor.update_bands { p with fft_output := p.freshOutput samples }
  else none

/-- A sequence of `process` calls, threading the state (and any panic). -/
def AudioProcessor.processTrace (p : AudioProcessor) :
    List (List ℚ × ℚ) → Option AudioProcessor
  | [] => some p
  | (s, r) :: rest => (p.process s r).bind fun p' => p'.processTrace rest

/-- `GRAVITY` of `SpectrumAnalyzer::update`. -/
def GRAVITY : ℚ := 0.001

/-- `DAMPING` of `SpectrumAnalyzer::update`. -/
def DAMPING : ℚ := 0.98

/-- `ATTACK` of `SpectrumAnalyzer::update`. -/
def ATTACK : ℚ := 0.15

/-- State of `SpectrumAnalyzer` from `src/visualisation/spectrum.rs`.  The
`colour_lut` field is omitted: it is a render-only `f32` colour precomputation
that cannot panic and that no claim concerns; with it gone, the source's
conditional `window_height` assignment is equivalent to always storing
`max_height` (when the condition is false the two are already equal). -/
structure SpectrumAnalyzer where
  bar_count : ℕ
  peak_levels : List ℚ
  peak_velocities : List ℚ
  window_height : ℕ

/-- `SpectrumAnalyzer::new`. -/
def SpectrumAnalyzer.new (bar_count : ℕ) : SpectrumAnalyzer :=
  ⟨bar_count, List.replicate bar_count 0, List.replicate bar_count 0, 0⟩

/-- One `(level, velocity)` step of the per-bar loop of
`SpectrumAnalyzer::update`: fast attack when the incoming value exceeds the
level, gravity-driven damped decay clamped at zero otherwise. -/
def specStep (lv : ℚ × ℚ) (x : ℚ) : ℚ × ℚ :=
  if lv.1 < x then (lv.1 * (1 - ATTACK) + x * ATTACK, 0)
  else
    let v := (lv.2 + GRAVITY) * DAMPING
    (max (lv.1 - v) 0, v)

/-- `SpectrumAnalyzer::update`.  The zipped iterators of the source touch the
first `min(levels, velocities, spectrum, bar_count)` bars and leave the rest
unchanged. -/
def SpectrumAnalyzer.update (a : SpectrumAnalyzer) (spectrum : List ℚ)
    (max_height : ℕ) : SpectrumAnalyzer :=
  let k := min (min (min a.peak_levels.length a.peak_velocities.length)
      spectrum.length) a.bar_count
  { a with
    window_height := max_height
    peak_levels := (List.range a.peak_levels.length).map fun i =>
      if i < k then
        (specStep (a.peak_levels.getD i 0, a.peak_velocities.getD i 0)
          (spectrum.getD i 0)).1
      else a.peak_levels.getD i 0
    peak_velocities := (List.range a.peak_velocities.length).map fun i =>
      if i < k then
        (specStep (a.peak_levels.getD i 0, a.peak_velocities.getD i 0)
          (spectrum.getD i 0)).2
      else a.peak_velocities.getD i 0 }

/-- The `(level, velocity)` trajectory of one bar across repeated updates with
input sequence `vals`. -/
def specTrace (lv : ℚ × ℚ) (vals : ℕ → ℚ) : ℕ → ℚ × ℚ
  | 0 => lv
  | k + 1 => specStep (specTrace lv vals k) (vals k)

/-- `BandParams` from `src/visualisation/waveform.rs`. -/
structure BandParams where
  factor : ℚ
  colour : ℕ

/-- The `BANDS` constant: `(start, end, colour)` per band. -/
def BANDS : List (ℕ × ℕ × ℕ) :=
  [(0, 4, 0xFF0000), (4, 12, 0xFF7F00), (12, 24, 0xFFFF00),
   (24, 40, 0x00FF00), (40, 56, 0x0000FF), (56, 80, 0x4B0082)]

/-- State of `WaveformDisplay`. -/
structure WaveformDisplay where
  samples : List ℚ
  width : ℕ
  bands : List BandParams

/-- `WaveformDisplay::new`. -/
def WaveformDisplay.new (width : ℕ) : WaveformDisplay :=
  ⟨List.replicate width 0, width, BANDS.map fun b => ⟨0, b.2.2⟩⟩

/-- `WaveformDisplay::resize`: `Vec::resize(new_width, 0.0)` truncates or
zero-pads, and `width` follows. -/
def WaveformDisplay.resize (w : WaveformDisplay) (new_width : ℕ) : WaveformDisplay :=
  if new_width ≠ w.width then
    { w with
      samples := w.samples.take new_width
        ++ List.replicate (new_width - w.samples.length) 0
      width := new_width }
  else w

/-- `calculate_band_energy`: `iter().take(end.min(len)).skip(start).sum()`
divided by `max(end - start, 1)` — the divisor is the full nominal range
width even when the slice supplies fewer bins. -/
def calculate_band_energy (fft_output : List ℚ) (start stop : ℕ) : ℚ :=
  ((fft_output.take (min stop fft_output.length)).drop start).sum
    / ((max (stop - start) 1 : ℕ) : ℚ)

/-- The band average as §4.4 of the specification reads: the mean of the raw
magnitude bins that actually lie in the band's range.  A refinement
comparison definition, written from the specification's words, not from the
source; `calculate_band_energy` is the source's computation. -/
def specBandAverage (fft_output : List ℚ) (start stop : ℕ) : ℚ :=
  let bins := (fft_output.take (min stop fft_output.length)).drop start
  bins.sum / (bins.length : ℚ)

/-- `WaveformDisplay::update`.  The trace loop indexes `samples[x]` for
`x < width` (a panic when `width > samples.len()`, reachable only when
`new_samples` is non-empty); the nearest-index resample `idx` is computed by
the source in `f32` (`(x / width * len) as usize`), written here as exact
integer arithmetic — no claim below depends on the index values, only on the
`idx < len` guard.  The band pass zips the stored bands with `BANDS` and
stores `gain * energy` per band. -/
def WaveformDisplay.update (w : WaveformDisplay) (new_samples fft_output : List ℚ) :
    Option WaveformDisplay :=
  (if new_samples.isEmpty then some w.samples
   else if w.width ≤ w.samples.length then
     some ((List.range w.samples.length).map fun x =>
       if x < w.width then
         if x * new_samples.length / w.width < new_samples.length then
           w.samples.getD x 0 * 0.5
             + new_samples.getD (x * new_samples.length / w.width) 0 * 0.5
         else w.samples.getD x 0
       else w.samples.getD x 0)
   else none).map fun samples' =>
    { w with
      samples := samples'
      bands := ((List.range (min w.bands.length BANDS.length)).map fun (i : ℕ) =>
          BandParams.mk (((i : ℚ) + 1) * 0.4
              * calculate_band_energy fft_output (BANDS.getD i (0, 0, 0)).1
                (BANDS.getD i (0, 0, 0)).2.1)
            (w.bands.getD i ⟨0, 0⟩).colour)
        ++ w.bands.drop (min w.bands.length BANDS.length) }

/-- `WaveformDisplay::decay`: multiply every trace sample by `0.95`. -/
def WaveformDisplay.decay (w : WaveformDisplay) : WaveformDisplay :=
  { w with samples := w.samples.map (· * 0.95) }

/-- `AudioPacket` from `src/audio/backend.rs`. -/
structure AudioPacket where
  samples : List ℚ
  sample_rate : ℚ
  channels : ℕ
  is_silent : Bool

/-- `AudioPacket::default`. -/
def AudioPacket.default : AudioPacket := ⟨[], 0, 0, true⟩

/-- State of `Visualiser` from `src/visualisation/visualiser.rs`. -/
structure Visualiser where
  processor : AudioProcessor
  spectrum : SpectrumAnalyzer
  waveform : WaveformDisplay
  config : AudioConfig
  window_dims : ℕ × ℕ

/-- `Visualiser::new`. -/
def Visualiser.new (config : AudioConfig) (initial_width : ℕ) (window : List ℚ)
    (norm_factor gain_gamma : ℚ) (twRe twIm : ℕ → ℕ → ℚ)
    (rawBins : ℚ → ℕ → ℕ × ℕ) : Visualiser where
  processor := AudioProcessor.new config window norm_factor gain_gamma twRe twIm rawBins
  spectrum := SpectrumAnalyzer.new config.bar_count
  waveform := WaveformDisplay.new initial_width
  config := config
  window_dims := (initial_width, 0)

/-- `Visualiser::mix_to_mono`.  `none` models the `usize` division-by-zero
panic of `samples.len() / channels as usize` when `channels = 0`. -/
def mix_to_mono (buffer_size : ℕ) (samples : List ℚ) (channels : ℕ) :
    Option (List ℚ) :=
  if channels = 0 then none
  else
    let frame_count := samples.length / channels
    some ((List.range (min frame_count buffer_size)).map fun i =>
      (((List.range channels).map fun ch =>
        if i * channels + ch < samples.length then samples.getD (i * channels + ch) 0
        else 0).sum) / (channels : ℚ))

/-- `Visualiser::update`: the Coordinator's per-frame update.  Silent packets
take the decay path; otherwise the packet is mixed to mono, processed, and
the waveform updated from the fresh raw magnitudes; both branches finish by
updating the spectrum bars from the post-process smoothed spectrum and the
cached window height. -/
def Visualiser.update (v : Visualiser) (packet : AudioPacket) : Option Visualiser :=
  if packet.is_silent then
    (v.processor.process [] packet.sample_rate).map fun p' =>
      { v with
        processor := p'
        waveform := v.waveform.decay
        spectrum := v.spectrum.update p'.smoothed_fft v.window_dims.2 }
  else
    (mix_to_mono v.config.buffer_size packet.samples packet.channels).bind fun mono =>
      (v.processor.process mono packet.sample_rate).bind fun p' =>
        (v.waveform.update mono p'.fft_output).map fun w' =>
          { v with
            processor := p'
            waveform := w'
            spectrum := v.spectrum.update p'.smoothed_fft v.window_dims.2 }

/-- Modelled from the spec: the Packet Channel (§3/§4.1).  The channel itself
is the external `triple_buffer` crate — only its construction in `App::new`
and its producer/consumer calls are in `src/` — so its state is modelled from
the specification's words as the most recently completed write, if any,
together with the construction-time default. -/
structure PacketChannel (α : Type) where
  dflt : α
  latest : Option α

/-- Modelled from the spec: channel construction with a caller-supplied
default and nothing yet published. -/
def PacketChannel.init {α : Type} (d : α) : PacketChannel α := ⟨d, none⟩

/-- Modelled from the spec: `write(value)` always succeeds and publishes
`value` as the newest version, replacing any unread prior value. -/
def PacketChannel.write {α : Type} (c : PacketChannel α) (v : α) : PacketChannel α :=
  { c with latest := some v }

/-- Modelled from the spec: `read()` always succeeds and returns the newest
published version, or the default when none was published; it does not
consume the value (a later read with no new write sees it again). -/
def PacketChannel.read {α : Type} (c : PacketChannel α) : α × PacketChannel α :=
  (c.latest.getD c.dflt, c)

/-- A producer/consumer operation on the Packet Channel. -/
inductive ChanOp (α : Type) where
  | write (v : α)
  | read

/-- Run a linearised history of channel operations from a given state. -/
def runOps {α : Type} (c : PacketChannel α) : List (ChanOp α) → PacketChannel α
  | [] => c
  | ChanOp.write v :: rest => runOps (c.write v) rest
  | ChanOp.read :: rest => runOps (c.read).2 rest

/-- The last value written in a history, if any. -/
def lastWrite {α : Type} : List (ChanOp α) → Option α
  | [] => none
  | ChanOp.write v :: rest => (lastWrite rest).orElse fun _ => some v
  | ChanOp.read :: rest => lastWrite rest

/-! Well-formedness of the pipeline state, as established by construction:
buffer lengths match the configuration and every band's high bin lies inside
the half spectrum. -/

/-- Construction invariant of `AudioProcessor`. -/
def ProcWF (p : AudioProcessor) : Prop :=
  4 ≤ p.config.fft_size ∧
  p.fft_output.length = p.config.fft_size / 2 ∧
  p.smoothed_fft.length = p.config.bar_count ∧
  (∀ b ∈ p.band_mapping, b.bin_high < p.config.fft_size / 2) ∧
  p.band_mapping.length ≤ p.config.bar_count

/-- Construction invariant of `Visualiser`: a well-formed processor and a
waveform whose trace is at least as long as its width. -/
def VisWF (v : Visualiser) : Prop :=
  ProcWF v.processor ∧ v.waveform.width ≤ v.waveform.samples.length

/-! Small list helpers. -/

lemma getD_zero_of_all_zero {l : List ℚ} (h : ∀ x ∈ l, x = 0) (i : ℕ) :
    l.getD i 0 = 0 := by
  rw [List.getD_eq_getElem?_getD]
  cases h' : l[i]? with
  | none => rfl
  | some a => exact h a (List.getElem?_mem h')

lemma getD_mem_of_lt {α : Type} {l : List α} {i : ℕ} (h : i < l.length) (d : α) :
    l.getD i d ∈ l := by
  rw [List.getD_eq_getElem?_getD, List.getElem?_eq_getElem h]
  exact List.getElem_mem h

lemma getD_map_mul (l : List ℚ) (c : ℚ) (i : ℕ) :
    (l.map (· * c)).getD i 0 = l.getD i 0 * c := by
  rw [List.getD_eq_getElem?_getD, List.getD_eq_getElem?_getD, List.getElem?_map]
  cases l[i]? with
  | none => simp
  | some a => rfl

/-! Claim C1: validity of the band mapping clamps. -/

lemma mkBandInfo_valid (fft_size : ℕ) (hfft : 4 ≤ fft_size) (raw : ℕ × ℕ) (i : ℕ) :
    (mkBandInfo fft_size raw i).bin_low < (mkBandInfo fft_size raw i).bin_high ∧
    (mkBandInfo fft_size raw i).bin_high ≤ fft_size / 2 - 1 := by
  have h2 : 2 ≤ fft_size / 2 := by omega
  simp only [mkBandInfo]
  omega

lemma precalculate_bands_valid (fft_size bar_count : ℕ) (raw : ℕ → ℕ × ℕ)
    (hfft : 4 ≤ fft_size) :
    ∀ b ∈ precalculate_bands fft_size bar_count raw,
      b.bin_low < b.bin_high ∧ b.bin_high ≤ fft_size / 2 - 1 := by
  intro b hb
  simp only [precalculate_bands, List.mem_map, List.mem_range] at hb
  obtain ⟨i, _, rfl⟩ := hb
  exact mkBandInfo_valid fft_size hfft (raw i) i

/-- C1: for every sample rate (hence for every abstract pre-clamp bin pair
`raw`) and every bar, the `BandMapping` entry built by `precalculate_bands`
satisfies `0 ≤ bin_low < bin_high ≤ fft_size/2 - 1`, given that `fft_size` is
a power of two of at least `4` and `bar_count ≥ 1`. -/
theorem c1_band_mapping_clamped (fft_size bar_count : ℕ) (raw : ℕ → ℕ × ℕ)
    (hpow : ∃ k, fft_size = 2 ^ k) (hfft : 4 ≤ fft_size) (hbar : 1 ≤ bar_count) :
    ∀ b ∈ precalculate_bands fft_size bar_count raw,
      0 ≤ b.bin_low ∧ b.bin_low < b.bin_high ∧ b.bin_high ≤ fft_size / 2 - 1 := by
  intro b hb
  exact ⟨Nat.zero_le _, precalculate_bands_valid fft_size bar_count raw hfft b hb⟩

/-- C1 witness: the theorem applied at `fft_size = 8`, `bar_count = 2` and a
concrete out-of-range pre-clamp pair. -/
theorem c1_witness :
    (∃ k, (8 : ℕ) = 2 ^ k) ∧ 4 ≤ (8 : ℕ) ∧ 1 ≤ (2 : ℕ) ∧
    ∀ b ∈ precalculate_bands 8 2 (fun _ => (100, 0)),
      0 ≤ b.bin_low ∧ b.bin_low < b.bin_high ∧ b.bin_high ≤ 8 / 2 - 1 :=
  ⟨⟨3, by norm_num⟩, by norm_num, by norm_num,
    c1_band_mapping_clamped 8 2 (fun _ => (100, 0)) ⟨3, by norm_num⟩
      (by norm_num) (by norm_num)⟩

/-! Claim C8: width round trip of the waveform trace. -/

/-- C8: shrinking the waveform display to `W' < W` and growing it back to `W`
leaves every trace sample at an index existing in both sizes unchanged. -/
theorem c8_resize_roundtrip_preserves (w : WaveformDisplay) (W W' : ℕ)
    (hw : w.width = W) (hlen : w.samples.length = W) (hlt : W' < W) :
    ∀ i < W', ((w.resize W').resize W).samples.getD i 0 = w.samples.getD i 0 := by
  intro i hi
  have hne : W' ≠ W := Nat.ne_of_lt hlt
  have hne' : W ≠ W' := Nat.ne_of_gt hlt
  simp only [WaveformDisplay.resize, hw, hne, hne', if_pos, ne_eq,
    not_false_eq_true, if_true, hlen]
  have h1 : W' - W = 0 := by omega
  rw [h1]
  simp only [List.replicate_zero, List.append_nil, List.length_take, hlen]
  rw [List.getD_eq_getElem?_getD, List.getD_eq_getElem?_getD, List.getElem?_append]
  have hilen : i < (List.take W (List.take W' w.samples)).length := by
    simp [List.length_take, hlen]; omega
  rw [if_pos hilen, List.getElem?_take, List.getElem?_take]
  simp [hi, Nat.lt_of_lt_of_le hi (Nat.le_of_lt hlt)]

/-- C8 witness: a concrete three-sample trace shrunk to two and grown back. -/
theorem c8_witness :
    (⟨[1, 2, 3], 3, []⟩ : WaveformDisplay).width = 3 ∧
    (⟨[1, 2, 3], 3, []⟩ : WaveformDisplay).samples.length = 3 ∧ 2 < 3 ∧
    ∀ i < 2,
      (((⟨[1, 2, 3], 3, []⟩ : WaveformDisplay).resize 2).resize 3).samples.getD i 0
        = (⟨[1, 2, 3], 3, []⟩ : WaveformDisplay).samples.getD i 0 :=
  ⟨rfl, rfl, by norm_num,
    c8_resize_roundtrip_preserves ⟨[1, 2, 3], 3, []⟩ 3 2 rfl rfl (by norm_num)⟩

/-! Claim C9: the Packet Channel contract (spec modelled). -/

lemma runOps_dflt {α : Type} (ops : List (ChanOp α)) (c : PacketChannel α) :
    (runOps c ops).dflt = c.dflt := by
  induction ops generalizing c with
  | nil => rfl
  | cons op rest ih =>
    cases op with
    | write v => exact ih _
    | read => exact ih _

lemma runOps_latest {α : Type} (ops : List (ChanOp α)) (c : PacketChannel α) :
    (runOps c ops).latest = ((lastWrite ops).orElse fun _ => c.latest) := by
  induction ops generalizing c with
  | nil => rfl
  | cons op rest ih =>
    cases op with
    | write v =>
      simp only [runOps, lastWrite, ih]
      cases lastWrite rest <;> rfl
    | read => exact ih _

/-- C9: over any linearised history of producer writes and consumer reads, a
read returns the most recently completed write (or the construction default
when none exists); writes always succeed and replace rather than queue (only
the last write is observable); a second read with no intervening write
returns the same stale value again. -/
theorem c9_packet_channel_latest {α : Type} (d : α) (ops : List (ChanOp α)) :
    (runOps (PacketChannel.init d) ops).read.1 = (lastWrite ops).getD d ∧
    ((runOps (PacketChannel.init d) ops).read.2).read.1
      = (runOps (PacketChannel.init d) ops).read.1 := by
  constructor
  · show (runOps (PacketChannel.init d) ops).latest.getD
      (runOps (PacketChannel.init d) ops).dflt = _
    rw [runOps_latest, runOps_dflt]
    cases lastWrite ops <;> rfl
  · rfl

/-! Claim C10: the silence path never touches the raw magnitude output. -/

lemma process_eq (p : AudioProcessor) (samples : List ℚ) (rate : ℚ) :
    p.process samples rate =
      if samples.isEmpty then some (p.rebuild rate).decay
      else if (p.rebuild rate).config.fft_size / 2
          ≤ (p.rebuild rate).fft_output.length then
        AudioProcessor.update_bands
          { p.rebuild rate with fft_output := (p.rebuild rate).freshOutput samples }
      else none := rfl

lemma process_nil (p : AudioProcessor) (rate : ℚ) :
    p.process [] rate = some (p.rebuild rate).decay := by
  rw [process_eq]
  rfl

lemma rebuild_parts (p : AudioProcessor) (rate : ℚ) :
    (p.rebuild rate).fft_output = p.fft_output ∧
    (p.rebuild rate).smoothed_fft = p.smoothed_fft ∧
    (p.rebuild rate).config = p.config ∧
    (p.rebuild rate).norm_factor = p.norm_factor ∧
    (p.rebuild rate).gain_gamma = p.gain_gamma := by
  unfold AudioProcessor.rebuild
  split <;> exact ⟨rfl, rfl, rfl, rfl, rfl⟩

lemma c10_helper_fft_and_smoothed (p : AudioProcessor) (rate : ℚ) :
    (p.process [] rate).map AudioProcessor.fft_output = some p.fft_output ∧
    (p.process [] rate).map AudioProcessor.smoothed_fft
      = some (p.smoothed_fft.map (· * DECAY_FACTOR)) := by
  rw [process_nil]
  refine ⟨?_, ?_⟩
  · simp [AudioProcessor.decay, (rebuild_parts p rate).1]
  · simp [AudioProcessor.decay, (rebuild_parts p rate).2.1]

/-- C10: an empty-samples (silence) `process` call leaves the Raw Magnitude
Output exactly as the previous non-empty call (or construction) left it —
only the Smoothed Spectrum decays, so the raw view read after a silent frame
is stale, not zeroed. -/
theorem c10_silence_keeps_fft_output (p : AudioProcessor) (rate : ℚ) :
    (p.process [] rate).map AudioProcessor.fft_output = some p.fft_output ∧
    (p.process [] rate).map AudioProcessor.smoothed_fft
      = some (p.smoothed_fft.map (· * DECAY_FACTOR)) :=
  c10_helper_fft_and_smoothed p rate

/-! Claim C6: fast attack then gravity decay on one spectrum bar. -/

lemma specStep_attack_ge {l v x : ℚ} (h : l < x) : l ≤ (specStep (l, v) x).1 := by
  simp only [specStep, if_pos h, ATTACK]
  nlinarith

lemma specStep_nonneg {l v : ℚ} (hl : 0 ≤ l) (hv : 0 ≤ v) (x : ℚ) :
    0 ≤ (specStep (l, v) x).1 ∧ 0 ≤ (specStep (l, v) x).2 := by
  simp only [specStep]
  split
  · rename_i h
    constructor
    · simp only [ATTACK]; nlinarith
    · exact le_refl 0
  · refine ⟨le_max_right _ 0, ?_⟩
    simp only [GRAVITY, DAMPING]
    nlinarith

lemma specStep_zero_le {l v : ℚ} (hl : 0 ≤ l) (hv : 0 ≤ v) :
    (specStep (l, v) 0).1 ≤ l := by
  have hnot : ¬ l < (0 : ℚ) := not_lt.mpr hl
  have hvel : (0 : ℚ) ≤ (v + GRAVITY) * DAMPING := by
    simp only [GRAVITY, DAMPING]
    nlinarith
  simp only [specStep, if_neg hnot]
  exact max_le (by nlinarith) hl

lemma specTrace_nonneg (lv : ℚ × ℚ) (vals : ℕ → ℚ)
    (hl : 0 ≤ lv.1) (hv : 0 ≤ lv.2) (k : ℕ) :
    0 ≤ (specTrace lv vals k).1 ∧ 0 ≤ (specTrace lv vals k).2 := by
  induction k with
  | zero => exact ⟨hl, hv⟩
  | succ k ih =>
    have := specStep_nonneg ih.1 ih.2 (vals k)
    simpa [specTrace] using this

/-- C6: with a per-bar input exceeding the current level on each of `N`
consecutive updates, the level sequence is monotonically non-decreasing under
the fast-attack blend; feeding `0` afterwards produces a level sequence that
is monotonically non-increasing and never negative under gravity decay. -/
theorem c6_attack_then_decay_monotone (lv : ℚ × ℚ) (vals : ℕ → ℚ) (N : ℕ)
    (hl : 0 ≤ lv.1) (hv : 0 ≤ lv.2)
    (hrise : ∀ k < N, (specTrace lv vals k).1 < vals k) :
    (∀ j k, j ≤ k → k ≤ N → (specTrace lv vals j).1 ≤ (specTrace lv vals k).1) ∧
    (∀ m m', m ≤ m' →
      (specTrace (specTrace lv vals N) (fun _ => 0) m').1
        ≤ (specTrace (specTrace lv vals N) (fun _ => 0) m).1) ∧
    ∀ m, 0 ≤ (specTrace (specTrace lv vals N) (fun _ => 0) m).1 := by
  have hstep : ∀ k < N, (specTrace lv vals k).1 ≤ (specTrace lv vals (k + 1)).1 := by
    intro k hk
    have h := hrise k hk
    show (specTrace lv vals k).1 ≤ (specStep (specTrace lv vals k) (vals k)).1
    have := specStep_attack_ge (l := (specTrace lv vals k).1)
      (v := (specTrace lv vals k).2) h
    simpa using this
  have hmono : ∀ j k, j ≤ k → k ≤ N → (specTrace lv vals j).1 ≤ (specTrace lv vals k).1 := by
    intro j k hjk hkN
    induction k with
    | zero =>
      have : j = 0 := Nat.le_zero.mp hjk
      simp [this]
    | succ k ih =>
      rcases Nat.eq_or_lt_of_le hjk with h | h
      · simp [h]
      · exact le_trans (ih (Nat.lt_succ_iff.mp h) (Nat.le_of_succ_le hkN))
          (hstep k (Nat.lt_of_lt_of_le (Nat.lt_succ_self k) hkN))
  have hbase := specTrace_nonneg lv vals hl hv N
  have hZinv : ∀ m, 0 ≤ (specTrace (specTrace lv vals N) (fun _ => 0) m).1 ∧
      0 ≤ (specTrace (specTrace lv vals N) (fun _ => 0) m).2 :=
    specTrace_nonneg (specTrace lv vals N) (fun _ => 0) hbase.1 hbase.2
  have hZstep : ∀ m, (specTrace (specTrace lv vals N) (fun _ => 0) (m + 1)).1
      ≤ (specTrace (specTrace lv vals N) (fun _ => 0) m).1 := by
    intro m
    have h := hZinv m
    show (specStep (specTrace (specTrace lv vals N) (fun _ => 0) m) 0).1 ≤ _
    have := specStep_zero_le (l := (specTrace (specTrace lv vals N) (fun _ => 0) m).1)
      (v := (specTrace (specTrace lv vals N) (fun _ => 0) m).2) h.1 h.2
    simpa using this
  refine ⟨hmono, ?_, fun m => (hZinv m).1⟩
  intro m m' hmm
  induction m' with
  | zero =>
    have : m = 0 := Nat.le_zero.mp hmm
    simp [this]
  | succ m' ih =>
    rcases Nat.eq_or_lt_of_le hmm with h | h
    · simp [h]
    · exact le_trans (hZstep m') (ih (Nat.lt_succ_iff.mp h))

/-- C6 witness: one rising update from rest, then the zero-input decay. -/
theorem c6_witness :
    (0 : ℚ) ≤ 0 ∧ (∀ k < 1, (specTrace (0, 0) (fun _ => 1) k).1 < 1) ∧
    ((∀ j k, j ≤ k → k ≤ 1 →
        (specTrace ((0 : ℚ), (0 : ℚ)) (fun _ => 1) j).1
          ≤ (specTrace ((0 : ℚ), (0 : ℚ)) (fun _ => 1) k).1) ∧
      (∀ m m', m ≤ m' →
        (specTrace (specTrace ((0 : ℚ), (0 : ℚ)) (fun _ => 1) 1) (fun _ => 0) m').1
          ≤ (specTrace (specTrace ((0 : ℚ), (0 : ℚ)) (fun _ => 1) 1) (fun _ => 0) m).1) ∧
      ∀ m, 0 ≤ (specTrace (specTrace ((0 : ℚ), (0 : ℚ)) (fun _ => 1) 1) (fun _ => 0) m).1) :=
  ⟨le_refl 0, by decide,
    c6_attack_then_decay_monotone (0, 0) (fun _ => 1) 1 (le_refl 0) (le_refl 0) (by decide)⟩

/-! Claim C3: effects of a silence packet on the pipeline. -/

lemma visUpdate_silent (v : Visualiser) (packet : AudioPacket)
    (hs : packet.is_silent = true) :
    ∃ v', v.update packet = some v' ∧
      v'.processor.smoothed_fft = v.processor.smoothed_fft.map (· * DECAY_FACTOR) ∧
      v'.waveform.samples = v.waveform.samples.map (· * 0.95) := by
  have hup : v.update packet = some
      { v with
        processor := (v.processor.rebuild packet.sample_rate).decay
        waveform := v.waveform.decay
        spectrum := v.spectrum.update
          ((v.processor.rebuild packet.sample_rate).decay).smoothed_fft
          v.window_dims.2 } := by
    unfold Visualiser.update
    rw [hs, if_pos rfl, process_nil]
    rfl
  refine ⟨_, hup, ?_, ?_⟩
  · show ((v.processor.rebuild packet.sample_rate).decay).smoothed_fft = _
    simp [AudioProcessor.decay, (rebuild_parts v.processor packet.sample_rate).2.1]
  · rfl

/-- A freshly constructed one-pixel pipeline, whose single trace sample is
`0`, used to refute the unqualified strict-decrease reading of C3. -/
def cVisC3 : Visualiser :=
  Visualiser.new ⟨8, 16, 2⟩ 1 [] 0 0 (fun _ _ => 0) (fun _ _ => 0) (fun _ _ => (0, 1))

/-- C3 counterexample: the claim as stated says a silence packet strictly
decreases the magnitude of every waveform trace sample; a trace sample at `0`
stays at `0`, whose magnitude does not strictly decrease. -/
theorem c3_counterexample :
    (cVisC3.update ⟨[], 48000, 0, true⟩).map (fun v => v.waveform.samples.getD 0 0)
      = some 0 ∧
    cVisC3.waveform.samples.getD 0 0 = 0 ∧
    ¬ |(0 : ℚ)| < |(0 : ℚ)| := by
  obtain ⟨v', hup, hsm, hwf⟩ := visUpdate_silent cVisC3 ⟨[], 48000, 0, true⟩ rfl
  refine ⟨?_, rfl, by norm_num⟩
  rw [hup]
  simp [hwf, cVisC3, Visualiser.new, WaveformDisplay.new]

/-- C3 (amended): a silence packet multiplies every Smoothed Spectrum entry
and every waveform trace sample by the fixed decay factor `0.95` with no FFT
work; every positive spectrum entry strictly decreases and zero entries stay
zero; every nonzero trace sample strictly decreases in magnitude, zero trace
samples stay at zero, and no magnitude ever increases. -/
theorem c3_silence_decay_amended (v : Visualiser) (packet : AudioPacket)
    (v' : Visualiser) (hs : packet.is_silent = true)
    (h : v.update packet = some v') :
    v'.processor.smoothed_fft = v.processor.smoothed_fft.map (· * DECAY_FACTOR) ∧
    v'.waveform.samples = v.waveform.samples.map (· * 0.95) ∧
    (∀ i, 0 < v.processor.smoothed_fft.getD i 0 →
      v'.processor.smoothed_fft.getD i 0 < v.processor.smoothed_fft.getD i 0) ∧
    (∀ i, v.processor.smoothed_fft.getD i 0 = 0 →
      v'.processor.smoothed_fft.getD i 0 = 0) ∧
    (∀ i, |v'.waveform.samples.getD i 0| ≤ |v.waveform.samples.getD i 0|) ∧
    (∀ i, v.waveform.samples.getD i 0 ≠ 0 →
      |v'.waveform.samples.getD i 0| < |v.waveform.samples.getD i 0|) ∧
    ∀ i, v.waveform.samples.getD i 0 = 0 → v'.waveform.samples.getD i 0 = 0 := by
  obtain ⟨v'', hup, hsm, hwf⟩ := visUpdate_silent v packet hs
  rw [hup] at h
  cases h
  refine ⟨hsm, hwf, ?_, ?_, ?_, ?_, ?_⟩
  · intro i hpos
    rw [hsm, DECAY_FACTOR, getD_map_mul]
    nlinarith
  · intro i hzero
    rw [hsm, DECAY_FACTOR, getD_map_mul, hzero]
    norm_num
  · intro i
    rw [hwf, getD_map_mul, abs_mul]
    have := abs_nonneg (v.waveform.samples.getD i 0)
    have : |(0.95 : ℚ)| = 0.95 := by norm_num
    rw [this]
    nlinarith [abs_nonneg (v.waveform.samples.getD i 0)]
  · intro i hne
    rw [hwf, getD_map_mul, abs_mul]
    have h95 : |(0.95 : ℚ)| = 0.95 := by norm_num
    rw [h95]
    have hpos : 0 < |v.waveform.samples.getD i 0| := abs_pos.mpr hne
    nlinarith
  · intro i hzero
    rw [hwf, getD_map_mul, hzero]
    norm_num

/-- A concrete one-bar pipeline state holding a positive spectrum value and a
positive trace sample, used to witness the silence-decay theorem. -/
def cVis3 : Visualiser where
  processor :=
    { config := ⟨8, 16, 1⟩, window_function := [], fft_output := [0, 0, 0, 0],
      smoothed_fft := [1], band_mapping := [], sample_rate := 48000,
      norm_factor := 0, gain_gamma := 0, twRe := fun _ _ => 0,
      twIm := fun _ _ => 0, rawBins := fun _ _ => (0, 1) }
  spectrum := SpectrumAnalyzer.new 1
  waveform := ⟨[1], 1, []⟩
  config := ⟨8, 16, 1⟩
  window_dims := (1, 0)

/-- A concrete silence packet. -/
def cPkt3 : AudioPacket := ⟨[], 48000, 0, true⟩

/-- The pipeline state after feeding the silence packet to `cVis3`. -/
def cVis3' : Visualiser := (cVis3.update cPkt3).getD cVis3

/-- C3 witness: the amended theorem applied to a concrete one-bar pipeline
holding a positive spectrum value, fed a silence packet. -/
theorem c3_witness :
    cPkt3.is_silent = true ∧ cVis3.update cPkt3 = some cVis3' ∧
    (cVis3'.processor.smoothed_fft = cVis3.processor.smoothed_fft.map (· * DECAY_FACTOR) ∧
     cVis3'.waveform.samples = cVis3.waveform.samples.map (· * 0.95) ∧
     (∀ i, 0 < cVis3.processor.smoothed_fft.getD i 0 →
       cVis3'.processor.smoothed_fft.getD i 0 < cVis3.processor.smoothed_fft.getD i 0) ∧
     (∀ i, cVis3.processor.smoothed_fft.getD i 0 = 0 →
       cVis3'.processor.smoothed_fft.getD i 0 = 0) ∧
     (∀ i, |cVis3'.waveform.samples.getD i 0| ≤ |cVis3.waveform.samples.getD i 0|) ∧
     (∀ i, cVis3.waveform.samples.getD i 0 ≠ 0 →
       |cVis3'.waveform.samples.getD i 0| < |cVis3.waveform.samples.getD i 0|) ∧
     ∀ i, cVis3.waveform.samples.getD i 0 = 0 →
       cVis3'.waveform.samples.getD i 0 = 0) := by
  refine ⟨rfl, rfl, c3_silence_decay_amended cVis3 cPkt3 cVis3' rfl rfl⟩

/-! Claim C2: totality of the per-frame Coordinator update. -/

lemma update_bands_some (p : AudioProcessor)
    (hbins : ∀ b ∈ p.band_mapping, b.bin_low < b.bin_high → b.bin_high < p.fft_output.length)
    (hlen : p.band_mapping.length ≤ p.smoothed_fft.length) :
    ∃ p', p.update_bands = some p' ∧
      p'.smoothed_fft.length = p.smoothed_fft.length ∧
      p'.fft_output = p.fft_output ∧ p'.band_mapping = p.band_mapping ∧
      p'.config = p.config := by
  unfold AudioProcessor.update_bands
  rw [if_pos ⟨hbins, hlen⟩]
  exact ⟨_, rfl, by simp, rfl, rfl, rfl⟩

lemma ProcWF_rebuild (p : AudioProcessor) (r : ℚ) (h : ProcWF p) :
    ProcWF (p.rebuild r) := by
  obtain ⟨h4, hout, hsm, hbins, hlen⟩ := h
  unfold AudioProcessor.rebuild
  split
  · refine ⟨h4, hout, hsm, ?_, ?_⟩
    · intro b hb
      have hv := (precalculate_bands_valid p.config.fft_size p.config.bar_count
        (p.rawBins r) h4 b hb).2
      show b.bin_high < p.config.fft_size / 2
      omega
    · show (precalculate_bands p.config.fft_size p.config.bar_count
        (p.rawBins r)).length ≤ p.config.bar_count
      simp [precalculate_bands]
  · exact ⟨h4, hout, hsm, hbins, hlen⟩

lemma ProcWF_decay (p : AudioProcessor) (h : ProcWF p) : ProcWF p.decay := by
  obtain ⟨h4, hout, hsm, hbins, hlen⟩ := h
  exact ⟨h4, hout, by simpa [AudioProcessor.decay] using hsm, hbins, hlen⟩

lemma freshOutput_length (p : AudioProcessor) (samples : List ℚ) :
    (p.freshOutput samples).length
      = p.config.fft_size / 2 + (p.fft_output.length - p.config.fft_size / 2) := by
  simp [AudioProcessor.freshOutput]

lemma process_some_of_wf (p : AudioProcessor) (samples : List ℚ) (r : ℚ)
    (h : ProcWF p) :
    ∃ p', p.process samples r = some p' ∧ ProcWF p' ∧ p'.config = p.config := by
  have hq : ProcWF (p.rebuild r) := ProcWF_rebuild p r h
  have hqc : (p.rebuild r).config = p.config := (rebuild_parts p r).2.2.1
  obtain ⟨h4, hout, hsm, hbins, hlen⟩ := hq
  by_cases hs : samples.isEmpty
  · refine ⟨(p.rebuild r).decay, ?_, ProcWF_decay _ ⟨h4, hout, hsm, hbins, hlen⟩, hqc⟩
    rw [process_eq, if_pos hs]
  · have hhalf : (p.rebuild r).config.fft_size / 2 ≤ (p.rebuild r).fft_output.length :=
      le_of_eq hout.symm
    have hflen : ((p.rebuild r).freshOutput samples).length
        = (p.rebuild r).config.fft_size / 2 := by
      rw [freshOutput_length, hout]
      omega
    obtain ⟨p', hp', hsm', hout', hbm', hcfg'⟩ :=
      update_bands_some { p.rebuild r with fft_output := (p.rebuild r).freshOutput samples }
        (fun b hb _ => by
          show b.bin_high < ((p.rebuild r).freshOutput samples).length
          rw [hflen]
          exact hbins b hb)
        (le_trans hlen (le_of_eq hsm.symm))
    have hc2 : p'.config = (p.rebuild r).config := hcfg'
    have hout2 : p'.fft_output = (p.rebuild r).freshOutput samples := hout'
    have hsm2 : p'.smoothed_fft.length = (p.rebuild r).smoothed_fft.length := hsm'
    have hbm2 : p'.band_mapping = (p.rebuild r).band_mapping := hbm'
    refine ⟨p', ?_, ⟨?_, ?_, ?_, ?_, ?_⟩, by rw [hc2]; exact hqc⟩
    · rw [process_eq, if_neg hs, if_pos hhalf]
      exact hp'
    · rw [hc2]; exact h4
    · rw [hout2, hc2]; exact hflen
    · rw [hsm2, hc2]; exact hsm
    · intro b hb
      rw [hc2]
      exact hbins b (by rwa [hbm2] at hb)
    · rw [hbm2, hc2]
      exact hlen

lemma waveform_update_some (w : WaveformDisplay) (ns out : List ℚ)
    (hw : w.width ≤ w.samples.length) :
    ∃ w', w.update ns out = some w' ∧ w'.width = w.width ∧
      w'.samples.length = w.samples.length := by
  unfold WaveformDisplay.update
  by_cases hns : ns.isEmpty
  · rw [if_pos hns]
    exact ⟨_, rfl, rfl, rfl⟩
  · rw [if_neg hns, if_pos hw]
    exact ⟨_, rfl, rfl, by simp⟩

lemma mix_to_mono_some (bs : ℕ) (samples : List ℚ) (channels : ℕ)
    (h : 1 ≤ channels) :
    ∃ mono, mix_to_mono bs samples channels = some mono := by
  unfold mix_to_mono
  rw [if_neg (by omega)]
  exact ⟨_, rfl⟩

/-- C2 counterexample: a non-silent packet with `channel_count = 0` makes the
Coordinator's update panic (`samples.len() / channels` divides by zero in
`mix_to_mono`), so the per-frame update is not total over all packets
satisfying the §3 data-model invariants. -/
theorem c2_counterexample :
    cVisC3.update ⟨[], 48000, 0, false⟩ = none := rfl

/-- C2 (amended): the Coordinator's per-frame update is total — no panic, for
any samples, any sample-rate change and any channel-count change — for every
packet that is silent or has `channel_count ≥ 1`; well-formedness of the
pipeline state is preserved.  (Packets with `channel_count = 0` and
`is_silent = false` panic; see the counterexample.) -/
theorem c2_update_total_amended (v : Visualiser) (packet : AudioPacket)
    (hwf : VisWF v) (hok : packet.is_silent = true ∨ 1 ≤ packet.channels) :
    ∃ v', v.update packet = some v' ∧ VisWF v' := by
  obtain ⟨hpwf, hwwf⟩ := hwf
  unfold Visualiser.update
  by_cases hs : packet.is_silent = true
  · rw [if_pos hs, process_nil]
    refine ⟨_, rfl, ProcWF_decay _ (ProcWF_rebuild _ _ hpwf), ?_⟩
    show v.waveform.decay.width ≤ v.waveform.decay.samples.length
    simpa [WaveformDisplay.decay] using hwwf
  · have hch : 1 ≤ packet.channels := hok.resolve_left hs
    rw [if_neg hs]
    obtain ⟨mono, hm⟩ := mix_to_mono_some v.config.buffer_size packet.samples
      packet.channels hch
    rw [hm, Option.some_bind]
    obtain ⟨p', hp', hpwf', _⟩ := process_some_of_wf v.processor mono
      packet.sample_rate hpwf
    rw [hp', Option.some_bind]
    obtain ⟨w', hw', hww, hwl⟩ := waveform_update_some v.waveform mono
      p'.fft_output hwwf
    rw [hw']
    exact ⟨_, rfl, hpwf', by show w'.width ≤ w'.samples.length; rw [hww, hwl]; exact hwwf⟩

/-- C2 witness: the amended theorem applied to a fresh pipeline and a
one-channel packet. -/
theorem c2_witness :
    VisWF cVisC3 ∧
    ((⟨[1, 2], 48000, 1, false⟩ : AudioPacket).is_silent = true ∨
      1 ≤ (⟨[1, 2], 48000, 1, false⟩ : AudioPacket).channels) ∧
    ∃ v', cVisC3.update ⟨[1, 2], 48000, 1, false⟩ = some v' ∧ VisWF v' := by
  have hwf : VisWF cVisC3 := by
    unfold VisWF ProcWF
    refine ⟨⟨?_, ?_, ?_, ?_, ?_⟩, ?_⟩ <;> decide
  exact ⟨hwf, Or.inr (by decide),
    c2_update_total_amended cVisC3 ⟨[1, 2], 48000, 1, false⟩ hwf (Or.inr (by decide))⟩

/-! Claim C4: an all-zero sample block produces no energy. -/

lemma prepareInput_zero (fft_size : ℕ) (window : List ℚ) (n : ℕ) :
    ∀ x ∈ prepareInput fft_size window (List.replicate n 0), x = 0 := by
  intro x hx
  unfold prepareInput at hx
  simp only [List.mem_map, List.mem_range] at hx
  obtain ⟨k, _, rfl⟩ := hx
  split
  · have hg : (List.replicate n (0 : ℚ)).getD k 0 = 0 :=
      getD_zero_of_all_zero (fun y hy => List.eq_of_mem_replicate hy) k
    have hmean : ((List.replicate n (0 : ℚ)).take
        (min fft_size (List.replicate n (0 : ℚ)).length)).sum = 0 :=
      List.sum_eq_zero fun y hy =>
        List.eq_of_mem_replicate (List.take_subset _ _ hy)
    rw [hg, hmean, zero_div, sub_zero, zero_mul]
  · rfl

lemma dftBin_zero (twRe twIm : ℕ → ℕ → ℚ) (input : List ℚ)
    (h : ∀ x ∈ input, x = 0) (k : ℕ) : dftBin twRe twIm input k = (0, 0) := by
  unfold dftBin
  have hz : ∀ (tw : ℕ → ℕ → ℚ),
      ((List.range input.length).map fun n => input.getD n 0 * tw k n).sum = 0 := by
    intro tw
    apply List.sum_eq_zero
    intro y hy
    simp only [List.mem_map, List.mem_range] at hy
    obtain ⟨m, _, rfl⟩ := hy
    rw [getD_zero_of_all_zero h m, zero_mul]
  rw [hz twRe, hz twIm]

lemma magScale_zero (nf gg : ℚ) : magScale nf gg (0, 0) = 0 := by
  unfold magScale
  norm_num [MAG_ALPHA, MAG_BETA]

lemma freshOutput_zero (p : AudioProcessor) (n : ℕ)
    (h : ∀ x ∈ p.fft_output, x = 0) :
    ∀ x ∈ p.freshOutput (List.replicate n 0), x = 0 := by
  intro x hx
  unfold AudioProcessor.freshOutput at hx
  rcases List.mem_append.mp hx with hx | hx
  · simp only [List.mem_map, List.mem_range] at hx
    obtain ⟨i, _, rfl⟩ := hx
    rw [dftBin_zero _ _ _ (prepareInput_zero _ _ _) i, magScale_zero]
  · exact h x (List.drop_subset _ _ hx)

lemma bandAvg_zero (out : List ℚ) (h : ∀ x ∈ out, x = 0) (b : BandInfo) :
    bandAvg out b = 0 := by
  unfold bandAvg
  split
  · rw [List.sum_eq_zero, zero_div]
    intro y hy
    exact h y (List.drop_subset _ _ (List.take_subset _ _ hy))
  · rfl

lemma update_bands_zero (p : AudioProcessor)
    (hout : ∀ x ∈ p.fft_output, x = 0) (hsm : ∀ x ∈ p.smoothed_fft, x = 0)
    (p' : AudioProcessor) (h : p.update_bands = some p') :
    (∀ x ∈ p'.fft_output, x = 0) ∧ ∀ x ∈ p'.smoothed_fft, x = 0 := by
  unfold AudioProcessor.update_bands at h
  split at h
  · cases h
    refine ⟨hout, ?_⟩
    intro x hx
    simp only [List.mem_map, List.mem_range] at hx
    obtain ⟨i, _, rfl⟩ := hx
    split
    · rw [getD_zero_of_all_zero hsm i, bandAvg_zero p.fft_output hout, zero_mul]
      norm_num [SMOOTH_FACTOR, ATTACK_FACTOR]
    · exact getD_zero_of_all_zero hsm i
  · exact absurd h (by simp)

/-- C4: processing a non-empty all-zero sample block at a positive sample
rate from the freshly constructed Spectral Engine yields an all-zero Raw
Magnitude Output and, after the band-averaging and smoothing update, an
all-zero Smoothed Spectrum — no energy and no ringing from DC removal. -/
theorem c4_zero_block_zero_spectrum (config : AudioConfig) (window : List ℚ)
    (nf gg : ℚ) (twRe twIm : ℕ → ℕ → ℚ) (rawBins : ℚ → ℕ → ℕ × ℕ)
    (n : ℕ) (rate : ℚ) (p' : AudioProcessor)
    (hn : 1 ≤ n) (hrate : 0 < rate)
    (h : (AudioProcessor.new config window nf gg twRe twIm rawBins).process
        (List.replicate n 0) rate = some p') :
    (∀ x ∈ p'.fft_output, x = 0) ∧ ∀ x ∈ p'.smoothed_fft, x = 0 := by
  rw [process_eq] at h
  have hne : (List.replicate n (0 : ℚ)).isEmpty = false := by
    rcases n with _ | m
    · omega
    · rfl
  rw [hne] at h
  simp only [Bool.false_eq_true, if_false] at h
  split at h
  · have hz : ∀ x ∈ ((AudioProcessor.new config window nf gg twRe twIm
        rawBins).rebuild rate).fft_output, x = 0 := by
      rw [(rebuild_parts _ rate).1]
      intro x hx
      simpa using List.eq_of_mem_replicate hx
    have hzs : ∀ x ∈ ((AudioProcessor.new config window nf gg twRe twIm
        rawBins).rebuild rate).smoothed_fft, x = 0 := by
      rw [(rebuild_parts _ rate).2.1]
      intro x hx
      simpa using List.eq_of_mem_replicate hx
    refine update_bands_zero _ ?_ ?_ p' h
    · exact freshOutput_zero _ n hz
    · exact hzs
  · exact absurd h (by simp)

/-- C4 witness: the theorem applied to a concrete engine and three zero
samples at 48 kHz. -/
theorem c4_witness :
    1 ≤ 3 ∧ (0 : ℚ) < 48000 ∧
    ∃ p', (AudioProcessor.new ⟨8, 16, 2⟩ [] 1 1 (fun _ _ => 1) (fun _ _ => 1)
        (fun _ _ => (0, 3))).process (List.replicate 3 0) 48000 = some p' ∧
      ((∀ x ∈ p'.fft_output, x = 0) ∧ ∀ x ∈ p'.smoothed_fft, x = 0) := by
  obtain ⟨p', hp', _, _⟩ := process_some_of_wf
    (AudioProcessor.new ⟨8, 16, 2⟩ [] 1 1 (fun _ _ => 1) (fun _ _ => 1)
      (fun _ _ => (0, 3))) (List.replicate 3 0) 48000
    (by unfold ProcWF; refine ⟨?_, ?_, ?_, ?_, ?_⟩ <;> decide)
  exact ⟨by norm_num, by norm_num, p', hp',
    c4_zero_block_zero_spectrum ⟨8, 16, 2⟩ [] 1 1 (fun _ _ => 1) (fun _ _ => 1)
      (fun _ _ => (0, 3)) 3 48000 p' (by norm_num) (by norm_num) hp'⟩

/-! Claim C5: the Smoothed Spectrum stays inside the unit interval. -/

lemma compensationFor_nonneg (i : ℕ) : 0 ≤ compensationFor i := by
  unfold compensationFor
  split_ifs with h1 h2
  · have hi : (0 : ℚ) ≤ (i : ℚ) := Nat.cast_nonneg i
    have : (0 : ℚ) ≤ (i : ℚ) / 8 := by positivity
    linarith
  · have hi : (8 : ℚ) ≤ (i : ℚ) := by
      have : (8 : ℕ) ≤ i := by omega
      exact_mod_cast this
    have : (0 : ℚ) ≤ ((i : ℚ) - 8) / 24 := div_nonneg (by linarith) (by norm_num)
    linarith
  · have hi : (32 : ℚ) ≤ (i : ℚ) := by
      have : (32 : ℕ) ≤ i := by omega
      exact_mod_cast this
    have : (0 : ℚ) ≤ ((i : ℚ) - 32) / 32 := div_nonneg (by linarith) (by norm_num)
    linarith

/-- Inductive invariant behind C5: raw magnitudes are nonnegative, smoothed
entries live in `[0, 1]`, compensation factors are nonnegative, and the
normalisation and gain constants are nonnegative. -/
def ProcInv (p : AudioProcessor) : Prop :=
  (∀ x ∈ p.fft_output, 0 ≤ x) ∧
  (∀ x ∈ p.smoothed_fft, 0 ≤ x ∧ x ≤ 1) ∧
  (∀ b ∈ p.band_mapping, 0 ≤ b.compensation) ∧
  0 ≤ p.norm_factor ∧ 0 ≤ p.gain_gamma

lemma magScale_nonneg {nf gg : ℚ} (hnf : 0 ≤ nf) (hgg : 0 ≤ gg) (c : ℚ × ℚ) :
    0 ≤ magScale nf gg c := by
  unfold magScale
  have h1 : 0 ≤ |c.1| := abs_nonneg _
  have h2 : 0 ≤ |c.2| := abs_nonneg _
  have hmax : 0 ≤ max |c.1| |c.2| := le_trans h1 (le_max_left _ _)
  have hmin' : 0 ≤ min |c.1| |c.2| := le_min h1 h2
  have hmag : 0 ≤ MAG_ALPHA * max |c.1| |c.2| + MAG_BETA * min |c.1| |c.2| := by
    unfold MAG_ALPHA MAG_BETA
    nlinarith
  exact le_min (mul_nonneg (mul_nonneg hmag hnf) hgg) (by norm_num)

lemma bandAvg_nonneg (out : List ℚ) (h : ∀ x ∈ out, 0 ≤ x) (b : BandInfo) :
    0 ≤ bandAvg out b := by
  unfold bandAvg
  split
  · apply div_nonneg
    · exact List.sum_nonneg fun y hy =>
        h y (List.drop_subset _ _ (List.take_subset _ _ hy))
    · exact_mod_cast Nat.zero_le _
  · exact le_refl 0

lemma update_bands_inv (p : AudioProcessor) (h : ProcInv p) (p' : AudioProcessor)
    (hup : p.update_bands = some p') : ProcInv p' := by
  obtain ⟨hout, hsm, hbm, hnf, hgg⟩ := h
  unfold AudioProcessor.update_bands at hup
  split at hup
  · cases hup
    refine ⟨hout, ?_, hbm, hnf, hgg⟩
    intro x hx
    simp only [List.mem_map, List.mem_range] at hx
    obtain ⟨i, hi, rfl⟩ := hx
    split
    · rename_i hilt
      obtain ⟨hs0, hs1⟩ := hsm _ (getD_mem_of_lt hi (0 : ℚ))
      have hb := hbm _ (getD_mem_of_lt hilt (⟨0, 0, 0⟩ : BandInfo))
      have havg := bandAvg_nonneg p.fft_output hout
        (p.band_mapping.getD i ⟨0, 0, 0⟩)
      have hcomp0 : 0 ≤ min (bandAvg p.fft_output (p.band_mapping.getD i ⟨0, 0, 0⟩)
          * (p.band_mapping.getD i ⟨0, 0, 0⟩).compensation) 1 :=
        le_min (mul_nonneg havg hb) (by norm_num)
      have hcomp1 : min (bandAvg p.fft_output (p.band_mapping.getD i ⟨0, 0, 0⟩)
          * (p.band_mapping.getD i ⟨0, 0, 0⟩).compensation) 1 ≤ 1 :=
        min_le_right _ _
      unfold SMOOTH_FACTOR ATTACK_FACTOR
      constructor <;> nlinarith
    · exact hsm _ (getD_mem_of_lt hi (0 : ℚ))
  · exact absurd hup (by simp)

lemma ProcInv_rebuild (p : AudioProcessor) (r : ℚ) (h : ProcInv p) :
    ProcInv (p.rebuild r) := by
  obtain ⟨hout, hsm, hbm, hnf, hgg⟩ := h
  unfold AudioProcessor.rebuild
  split
  · refine ⟨hout, hsm, ?_, hnf, hgg⟩
    intro b hb
    have hb' : b ∈ precalculate_bands p.config.fft_size p.config.bar_count
        (p.rawBins r) := hb
    simp only [precalculate_bands, List.mem_map, List.mem_range] at hb'
    obtain ⟨i, _, rfl⟩ := hb'
    exact compensationFor_nonneg i
  · exact ⟨hout, hsm, hbm, hnf, hgg⟩

lemma ProcInv_decay (p : AudioProcessor) (h : ProcInv p) : ProcInv p.decay := by
  obtain ⟨hout, hsm, hbm, hnf, hgg⟩ := h
  refine ⟨hout, ?_, hbm, hnf, hgg⟩
  intro x hx
  have hx' : x ∈ p.smoothed_fft.map (· * DECAY_FACTOR) := hx
  simp only [List.mem_map] at hx'
  obtain ⟨y, hy, rfl⟩ := hx'
  obtain ⟨hy0, hy1⟩ := hsm y hy
  unfold DECAY_FACTOR
  constructor <;> nlinarith

lemma freshOutput_nonneg (p : AudioProcessor) (samples : List ℚ)
    (hout : ∀ x ∈ p.fft_output, 0 ≤ x) (hnf : 0 ≤ p.norm_factor)
    (hgg : 0 ≤ p.gain_gamma) :
    ∀ x ∈ p.freshOutput samples, 0 ≤ x := by
  intro x hx
  unfold AudioProcessor.freshOutput at hx
  rcases List.mem_append.mp hx with hx | hx
  · simp only [List.mem_map, List.mem_range] at hx
    obtain ⟨i, _, rfl⟩ := hx
    exact magScale_nonneg hnf hgg _
  · exact hout x (List.drop_subset _ _ hx)

lemma process_inv (p : AudioProcessor) (samples : List ℚ) (r : ℚ)
    (h : ProcInv p) (p' : AudioProcessor) (hp : p.process samples r = some p') :
    ProcInv p' := by
  have hq : ProcInv (p.rebuild r) := ProcInv_rebuild p r h
  rw [process_eq] at hp
  split at hp
  · cases hp
    exact ProcInv_decay _ hq
  · split at hp
    · obtain ⟨hout, hsm, hbm, hnf, hgg⟩ := hq
      refine update_bands_inv _ ⟨?_, ?_, ?_, ?_, ?_⟩ p' hp
      · exact freshOutput_nonneg _ samples hout hnf hgg
      · exact hsm
      · exact hbm
      · exact hnf
      · exact hgg
    · exact absurd hp (by simp)

lemma processTrace_inv (inputs : List (List ℚ × ℚ)) (p : AudioProcessor)
    (h : ProcInv p) (p' : AudioProcessor)
    (hp : p.processTrace inputs = some p') : ProcInv p' := by
  induction inputs generalizing p with
  | nil =>
    cases hp
    exact h
  | cons sr rest ih =>
    obtain ⟨s, r⟩ := sr
    unfold AudioProcessor.processTrace at hp
    cases hstep : p.process s r with
    | none => rw [hstep] at hp; exact absurd hp (by simp)
    | some q =>
      rw [hstep, Option.some_bind] at hp
      exact ih q (process_inv p s r h q hstep) hp

lemma processTrace_some_of_wf (inputs : List (List ℚ × ℚ)) (p : AudioProcessor)
    (h : ProcWF p) : ∃ p', p.processTrace inputs = some p' := by
  induction inputs generalizing p with
  | nil => exact ⟨p, rfl⟩
  | cons sr rest ih =>
    obtain ⟨s, r⟩ := sr
    obtain ⟨q, hq, hqwf, _⟩ := process_some_of_wf p s r h
    obtain ⟨p', hp'⟩ := ih q hqwf
    exact ⟨p', by unfold AudioProcessor.processTrace; rw [hq, Option.some_bind]; exact hp'⟩

/-- C5: starting from the all-zero initial state, every sequence of `process`
calls (non-empty blocks via the `0.85/0.15` exponential blend of clamped
compensated averages, empty blocks via the `0.95` decay) keeps all Smoothed
Spectrum entries inside `[0, 1]`, for any nonnegative normalisation and
gain/gamma constants. -/
theorem c5_smoothed_in_unit_interval (config : AudioConfig) (window : List ℚ)
    (nf gg : ℚ) (twRe twIm : ℕ → ℕ → ℚ) (rawBins : ℚ → ℕ → ℕ × ℕ)
    (inputs : List (List ℚ × ℚ)) (p' : AudioProcessor)
    (hnf : 0 ≤ nf) (hgg : 0 ≤ gg)
    (h : (AudioProcessor.new config window nf gg twRe twIm rawBins).processTrace
        inputs = some p') :
    ∀ x ∈ p'.smoothed_fft, 0 ≤ x ∧ x ≤ 1 := by
  have hinit : ProcInv (AudioProcessor.new config window nf gg twRe twIm rawBins) := by
    refine ⟨?_, ?_, ?_, hnf, hgg⟩
    · intro x hx
      have := List.eq_of_mem_replicate hx
      simp [this]
    · intro x hx
      have := List.eq_of_mem_replicate hx
      constructor <;> simp [this]
    · intro b hb
      exact absurd hb (List.not_mem_nil b)
  exact (processTrace_inv inputs _ hinit p' h).2.1

/-- C5 witness: a two-call trace (a zero block, then silence) from a concrete
engine. -/
theorem c5_witness :
    (0 : ℚ) ≤ 1 ∧ (0 : ℚ) ≤ 1 ∧
    ∃ p', (AudioProcessor.new ⟨8, 16, 2⟩ [] 1 1 (fun _ _ => 1) (fun _ _ => 1)
        (fun _ _ => (0, 3))).processTrace
        [(List.replicate 2 0, 48000), ([], 48000)] = some p' ∧
      ∀ x ∈ p'.smoothed_fft, 0 ≤ x ∧ x ≤ 1 := by
  obtain ⟨p', hp'⟩ := processTrace_some_of_wf
    [(List.replicate 2 0, 48000), ([], 48000)]
    (AudioProcessor.new ⟨8, 16, 2⟩ [] 1 1 (fun _ _ => 1) (fun _ _ => 1)
      (fun _ _ => (0, 3)))
    (by unfold ProcWF; refine ⟨?_, ?_, ?_, ?_, ?_⟩ <;> decide)
  exact ⟨by norm_num, by norm_num, p', hp',
    c5_smoothed_in_unit_interval ⟨8, 16, 2⟩ [] 1 1 (fun _ _ => 1) (fun _ _ => 1)
      (fun _ _ => (0, 3)) [(List.replicate 2 0, 48000), ([], 48000)] p'
      (by norm_num) (by norm_num) hp'⟩

/-! Claim C7: the per-band energy stored by the waveform update. -/

lemma energy_eq_specAvg (l : List ℚ) (a b : ℕ) (hab : a < b) (hb : b ≤ l.length) :
    calculate_band_energy l a b = specBandAverage l a b := by
  simp only [calculate_band_energy, specBandAverage]
  rw [min_eq_left hb]
  have hlen : ((l.take b).drop a).length = b - a := by
    simp only [List.length_drop, List.length_take]
    omega
  rw [hlen, Nat.max_eq_left (by omega)]

lemma waveform_update_bands_eq (w w' : WaveformDisplay) (ns out : List ℚ)
    (h : w.update ns out = some w') :
    w'.bands = ((List.range (min w.bands.length BANDS.length)).map fun (i : ℕ) =>
        BandParams.mk (((i : ℚ) + 1) * 0.4
            * calculate_band_energy out (BANDS.getD i (0, 0, 0)).1
              (BANDS.getD i (0, 0, 0)).2.1)
          (w.bands.getD i ⟨0, 0⟩).colour)
      ++ w.bands.drop (min w.bands.length BANDS.length) := by
  unfold WaveformDisplay.update at h
  split at h
  · simp only [Option.map_some', Option.some.injEq] at h
    subst h
    rfl
  · split at h
    · simp only [Option.map_some', Option.some.injEq] at h
      subst h
      rfl
    · exact absurd h (by simp)

/-- C7 counterexample: for a Raw Magnitude slice shorter than a band's fixed
range, `calculate_band_energy` divides the partial sum by the full nominal
range width, so the stored energy is not the band gain times the average of
the bins present in the range: for the slice `[1]` and band 0 (range
`[0, 4)`, gain `0.4`) the code stores `0.4 * (1/4) = 1/10`, while the gain
times the average of the present bins is `0.4 * 1 = 2/5`. -/
theorem c7_counterexample :
    ((WaveformDisplay.new 2).update [] [1]).map
        (fun w => (w.bands.getD 0 ⟨0, 0⟩).factor) = some (1 / 10) ∧
    (((0 : ℕ) : ℚ) + 1) * 0.4 * specBandAverage [1] (BANDS.getD 0 (0, 0, 0)).1
        (BANDS.getD 0 (0, 0, 0)).2.1 = 2 / 5 ∧
    (1 / 10 : ℚ) ≠ 2 / 5 := by
  refine ⟨?_, ?_, by norm_num⟩
  · rw [show ((WaveformDisplay.new 2).update [] [1]).map
        (fun w => (w.bands.getD 0 ⟨0, 0⟩).factor)
      = some ((((0 : ℕ) : ℚ) + 1) * 0.4 * calculate_band_energy [1] 0 4) from rfl]
    norm_num [calculate_band_energy]
  · norm_num [BANDS, specBandAverage]

/-- C7 (amended): whenever the Raw Magnitude Output slice covers a band's
fixed bin range (in particular for any slice of at least 80 bins, which the
real pipeline guarantees for `fft_size ≥ 160`), the stored per-frame energy
of band `i` equals the gain `(i+1)*0.4` times the average of the bins in that
band's range; for shorter slices the code instead divides the partial sum by
the full nominal range width. -/
theorem c7_band_energy_amended (w w' : WaveformDisplay) (ns out : List ℚ)
    (h : w.update ns out = some w') (hlen : 80 ≤ out.length)
    (hb : w.bands.length = 6) :
    ∀ i < 6, (w'.bands.getD i ⟨0, 0⟩).factor
      = ((i : ℚ) + 1) * 0.4
        * specBandAverage out (BANDS.getD i (0, 0, 0)).1
          (BANDS.getD i (0, 0, 0)).2.1 := by
  intro i hi
  have hbands := waveform_update_bands_eq w w' ns out h
  have hk : min w.bands.length BANDS.length = 6 := by
    rw [hb]
    rfl
  rw [hk] at hbands
  have hmaplen : i < (((List.range 6).map fun (i : ℕ) =>
      BandParams.mk (((i : ℚ) + 1) * 0.4
          * calculate_band_energy out (BANDS.getD i (0, 0, 0)).1
            (BANDS.getD i (0, 0, 0)).2.1)
        (w.bands.getD i ⟨0, 0⟩).colour)).length := by
    simpa using hi
  rw [hbands, List.getD_eq_getElem?_getD, List.getElem?_append, if_pos hmaplen,
    List.getElem?_map, List.getElem?_range hi]
  have hse : (BANDS.getD i (0, 0, 0)).1 < (BANDS.getD i (0, 0, 0)).2.1 ∧
      (BANDS.getD i (0, 0, 0)).2.1 ≤ 80 := by
    interval_cases i <;> exact ⟨by norm_num [BANDS], by norm_num [BANDS]⟩
  simp only [Option.map_some', Option.getD_some]
  rw [energy_eq_specAvg out _ _ hse.1 (le_trans hse.2 hlen)]

/-- Concrete waveform state and output slice for the C7 witness. -/
def cW7 : WaveformDisplay := WaveformDisplay.new 4

/-- The waveform state after a C7 witness update with an 80-bin slice. -/
def cW7' : WaveformDisplay := (cW7.update [] (List.replicate 80 0)).getD cW7

/-- C7 witness: the amended theorem applied at a fresh four-pixel display and
an 80-bin all-zero raw magnitude slice. -/
theorem c7_witness :
    cW7.update [] (List.replicate 80 0) = some cW7' ∧
    80 ≤ (List.replicate (80 : ℕ) (0 : ℚ)).length ∧ cW7.bands.length = 6 ∧
    ∀ i < 6, (cW7'.bands.getD i ⟨0, 0⟩).factor
      = ((i : ℚ) + 1) * 0.4
        * specBandAverage (List.replicate 80 0) (BANDS.getD i (0, 0, 0)).1
          (BANDS.getD i (0, 0, 0)).2.1 :=
  ⟨rfl, by simp, rfl,
    c7_band_energy_amended cW7 cW7' [] (List.replicate 80 0) rfl (by simp) rfl⟩

end Field
